import Mathlib

/-!
Shallow embedding of the commodity futures Monte Carlo simulator
(`src/simulator.py`, class `CommoditySimulator`).

Prices and P&L values are modelled as real numbers.  The vector of
standard-normal draws consumed by `np.random.standard_normal(n_simulations)`
is passed in explicitly as a list `z`, so `n_simulations = z.length`.
Python exceptions (`ValueError` for an unknown strategy) are modelled with
`Except String`.
-/

namespace CommoditySim

/-- Static data of a `CommoditySimulator` instance: the commodity code plus
the current price and annualized volatility that `__init__` fetches from the
data loader. -/
structure CommoditySimulator where
  commodity : String
  current_price : ℝ
  volatility : ℝ

/-- Minimum of a list, `np.min` (0 on the empty list, on which numpy
raises; every use below is on a non-empty list). -/
def listMin : List ℝ → ℝ
  | [] => 0
  | x :: xs => xs.foldl min x

/-- Maximum of a list, `np.max`. -/
def listMax : List ℝ → ℝ
  | [] => 0
  | x :: xs => xs.foldl max x

/-- Population mean, `np.mean`. -/
noncomputable def meanOf (xs : List ℝ) : ℝ := xs.sum / xs.length

/-- Population variance, mean of squared deviations (what `np.std`
squares). -/
noncomputable def varianceOf (xs : List ℝ) : ℝ :=
  meanOf (xs.map fun x => (x - meanOf xs) ^ 2)

/-- Population standard deviation, `np.std`. -/
noncomputable def stdOf (xs : List ℝ) : ℝ := Real.sqrt (varianceOf xs)

/-- Ascending sort, `np.sort`. -/
noncomputable def sortAsc (xs : List ℝ) : List ℝ := xs.insertionSort (· ≤ ·)

/-- Value of the piecewise-linear interpolant through the points
`(i, s[i])` of a sorted sample `s` at fractional index `x`; this is
`numpy`'s (default) linear percentile interpolation step. -/
noncomputable def interpAt (s : List ℝ) (x : ℝ) : ℝ :=
  s.getD (⌊x⌋).toNat 0 +
    (x - ⌊x⌋) * (s.getD (min ((⌊x⌋).toNat + 1) (s.length - 1)) 0 - s.getD (⌊x⌋).toNat 0)

/-- Linear-interpolation percentile, the default method of
`np.percentile`: virtual index `q/100·(n−1)` into the ascending sort,
interpolating linearly between the two neighbouring entries. -/
noncomputable def percentile (xs : List ℝ) (q : ℝ) : ℝ :=
  interpAt (sortAsc xs) (q / 100 * ((xs.length : ℝ) - 1))

/-- Median (`np.median`): middle entry of the ascending sort for odd
length, average of the two middle entries for even length. -/
noncomputable def medianOf (xs : List ℝ) : ℝ :=
  if (sortAsc xs).length % 2 = 1 then (sortAsc xs).getD ((sortAsc xs).length / 2) 0
  else ((sortAsc xs).getD ((sortAsc xs).length / 2 - 1) 0 +
        (sortAsc xs).getD ((sortAsc xs).length / 2) 0) / 2

/-- Running maximum along the list, `np.maximum.accumulate`. -/
noncomputable def cumMax : List ℝ → List ℝ
  | [] => []
  | x :: xs => x :: (cumMax xs).map (max x)

/-- `CommoditySimulator.simulate_prices`: geometric Brownian motion terminal
prices; `dt = time_horizon / 12`, drift `0.02`, one price per normal draw. -/
noncomputable def simulate_prices (sim : CommoditySimulator)
    (spot_price time_horizon : ℝ) (z : List ℝ) : List ℝ :=
  z.map fun zi =>
    spot_price * Real.exp ((0.02 - 0.5 * sim.volatility ^ 2) * (time_horizon / 12) +
      sim.volatility * Real.sqrt (time_horizon / 12) * zi)

/-- `CommoditySimulator.calculate_pnl`: per-scenario revenue under the four
string-dispatched hedging strategies; any other strategy raises
`ValueError(f"Unknown strategy: {strategy}")`. -/
noncomputable def calculate_pnl (volume spot_price futures_price : ℝ)
    (final_prices : List ℝ) (strategy : String) : Except String (List ℝ) :=
  if strategy = "no_hedge" then
    .ok (final_prices.map fun p => volume * p)
  else if strategy = "full_hedge" then
    .ok (final_prices.map fun _ => volume * futures_price)
  else if strategy = "partial_hedge" then
    .ok (final_prices.map fun p =>
      volume * 0.5 * futures_price + volume * (1 - 0.5) * p)
  else if strategy = "dynamic_hedge" then
    .ok (final_prices.map fun p =>
      volume * (min (max (0.5 + 0.5 * (futures_price - p) / futures_price) 0) 1) * futures_price +
      volume * (1 - min (max (0.5 + 0.5 * (futures_price - p) / futures_price) 0) 1) * p)
  else
    .error ("Unknown strategy: " ++ strategy)

/-- Record returned by `CommoditySimulator.calculate_risk_metrics`. -/
structure RiskMetrics where
  mean : ℝ
  std : ℝ
  min : ℝ
  max : ℝ
  var_95 : ℝ
  es_95 : ℝ
  sharpe_ratio : ℝ
  max_drawdown : ℝ
  percentile_5 : ℝ
  percentile_25 : ℝ
  percentile_50 : ℝ
  percentile_75 : ℝ
  percentile_95 : ℝ

/-- `CommoditySimulator.calculate_risk_metrics`: mean/std, VaR as the 5th
linear-interpolation percentile, expected shortfall as the mean of the tail
`pnl ≤ var_95`, the literal Sharpe-ratio formula guarded by `std > 0`, and
the max drawdown over the descending sort of the P&L vector. -/
noncomputable def calculate_risk_metrics (pnl : List ℝ) : RiskMetrics :=
  { mean := meanOf pnl
    std := stdOf pnl
    min := listMin pnl
    max := listMax pnl
    var_95 := percentile pnl 5
    es_95 := meanOf (pnl.filter fun x => decide (x ≤ percentile pnl 5))
    sharpe_ratio :=
      if 0 < stdOf pnl then
        (meanOf pnl / meanOf pnl - 0.03) / (stdOf pnl / meanOf pnl)
      else 0
    max_drawdown :=
      (if 0 < (List.zipWith (fun m v => (m - v) / m) (cumMax ((sortAsc pnl).reverse))
                ((sortAsc pnl).reverse)).length
       then listMax (List.zipWith (fun m v => (m - v) / m) (cumMax ((sortAsc pnl).reverse))
                ((sortAsc pnl).reverse))
       else 0) * 100
    percentile_5 := percentile pnl 5
    percentile_25 := percentile pnl 25
    percentile_50 := percentile pnl 50
    percentile_75 := percentile pnl 75
    percentile_95 := percentile pnl 95 }

/-- Histogram range used by `np.histogram`: `[min, max]` of the data,
expanded to `[min − 0.5, max + 0.5]` when all values coincide. -/
noncomputable def histRange (values : List ℝ) : ℝ × ℝ :=
  if listMin values = listMax values then (listMin values - 0.5, listMax values + 0.5)
  else (listMin values, listMax values)

/-- The 51 equally spaced bin edges `np.histogram(values, bins=50)`
returns. -/
noncomputable def histEdges (values : List ℝ) : List ℝ :=
  (List.range 51).map fun i : ℕ =>
    (histRange values).1 + (i : ℝ) * (((histRange values).2 - (histRange values).1) / 50)

/-- Count of values in bin `i` of `bins` equal-width bins of width `w`
starting at `lo`: bins are half-open `[eᵢ, eᵢ₊₁)` except the last, which is
closed on the right (`np.histogram`'s convention). -/
noncomputable def binCount (lo w : ℝ) (bins : ℕ) (values : List ℝ) (i : ℕ) : ℕ :=
  if i + 1 = bins then
    values.countP fun v => decide (lo + i * w ≤ v) && decide (v ≤ lo + (i + 1) * w)
  else
    values.countP fun v => decide (lo + i * w ≤ v) && decide (v < lo + (i + 1) * w)

/-- The 50 bin counts of `np.histogram(values, bins=50)`. -/
noncomputable def histCounts (values : List ℝ) : List ℕ :=
  (List.range 50).map
    (binCount (histRange values).1 (((histRange values).2 - (histRange values).1) / 50) 50 values)

/-- The `sample_scenarios` block of the result dictionary. -/
structure SampleScenarios where
  best_case : ℝ
  worst_case : ℝ
  median : ℝ

/-- The dictionary returned by `CommoditySimulator.run_simulation`. -/
structure SimulationResult where
  strategy : String
  commodity : String
  spot_price : ℝ
  volume : ℝ
  time_horizon : ℝ
  n_simulations : ℕ
  metrics : RiskMetrics
  histogram : List ℕ × List ℝ
  price_distribution : List ℕ × List ℝ
  sample_scenarios : SampleScenarios

/-- `CommoditySimulator.run_simulation`: resolves the `spot_price == 0`
sentinel to the market price, simulates prices, computes the strategy P&L,
risk metrics, both histograms and the scenario scalars.  There is no
parameter validation in the source. -/
noncomputable def run_simulation (sim : CommoditySimulator)
    (volume spot_price time_horizon : ℝ) (strategy : String) (z : List ℝ) :
    Except String SimulationResult :=
  match calculate_pnl volume (if spot_price = 0 then sim.current_price else spot_price)
      (if spot_price = 0 then sim.current_price else spot_price)
      (simulate_prices sim (if spot_price = 0 then sim.current_price else spot_price)
        time_horizon z) strategy with
  | .error e => .error e
  | .ok pnl =>
    .ok { strategy := strategy
          commodity := sim.commodity
          spot_price := if spot_price = 0 then sim.current_price else spot_price
          volume := volume
          time_horizon := time_horizon
          n_simulations := z.length
          metrics := calculate_risk_metrics pnl
          histogram := (histCounts pnl, histEdges pnl)
          price_distribution :=
            (histCounts (simulate_prices sim
                (if spot_price = 0 then sim.current_price else spot_price) time_horizon z),
             histEdges (simulate_prices sim
                (if spot_price = 0 then sim.current_price else spot_price) time_horizon z))
          sample_scenarios :=
            { best_case := listMax pnl
              worst_case := listMin pnl
              median := medianOf pnl } }

/-! ### Elementary facts about `listMin`, `listMax`, `meanOf`, `varianceOf` -/

theorem foldl_min_le_init (xs : List ℝ) (a : ℝ) : xs.foldl min a ≤ a := by
  induction xs generalizing a with
  | nil => exact le_refl a
  | cons x xs ih => exact le_trans (ih (min a x)) (min_le_left a x)

theorem foldl_min_le_mem (xs : List ℝ) (a b : ℝ) (hb : b ∈ xs) : xs.foldl min a ≤ b := by
  induction xs generalizing a with
  | nil => cases hb
  | cons x xs ih =>
    rcases List.mem_cons.1 hb with rfl | hb
    · exact le_trans (foldl_min_le_init xs (min a b)) (min_le_right a b)
    · exact ih (min a x) hb

theorem foldl_min_eq_or_mem (xs : List ℝ) (a : ℝ) :
    xs.foldl min a = a ∨ xs.foldl min a ∈ xs := by
  induction xs generalizing a with
  | nil => exact Or.inl rfl
  | cons x xs ih =>
    rw [List.foldl_cons]
    rcases ih (min a x) with h | h
    · rcases min_choice a x with h2 | h2
      · exact Or.inl (h.trans h2)
      · exact Or.inr (by rw [h, h2]; exact List.mem_cons_self x xs)
    · exact Or.inr (List.mem_cons_of_mem x h)

theorem listMin_le_of_mem {xs : List ℝ} {b : ℝ} (hb : b ∈ xs) : listMin xs ≤ b := by
  cases xs with
  | nil => cases hb
  | cons x xs =>
    rcases List.mem_cons.1 hb with rfl | hb
    · exact foldl_min_le_init xs b
    · exact foldl_min_le_mem xs x b hb

theorem listMin_mem {xs : List ℝ} (h : xs ≠ []) : listMin xs ∈ xs := by
  cases xs with
  | nil => exact absurd rfl h
  | cons x xs =>
    rcases foldl_min_eq_or_mem xs x with h2 | h2
    · show xs.foldl min x ∈ x :: xs
      rw [h2]; exact List.mem_cons_self x xs
    · exact List.mem_cons_of_mem x h2

theorem init_le_foldl_max (xs : List ℝ) (a : ℝ) : a ≤ xs.foldl max a := by
  induction xs generalizing a with
  | nil => exact le_refl a
  | cons x xs ih => exact le_trans (le_max_left a x) (ih (max a x))

theorem mem_le_foldl_max (xs : List ℝ) (a b : ℝ) (hb : b ∈ xs) : b ≤ xs.foldl max a := by
  induction xs generalizing a with
  | nil => cases hb
  | cons x xs ih =>
    rcases List.mem_cons.1 hb with rfl | hb
    · exact le_trans (le_max_right a b) (init_le_foldl_max xs (max a b))
    · exact ih (max a x) hb

theorem foldl_max_eq_or_mem (xs : List ℝ) (a : ℝ) :
    xs.foldl max a = a ∨ xs.foldl max a ∈ xs := by
  induction xs generalizing a with
  | nil => exact Or.inl rfl
  | cons x xs ih =>
    rw [List.foldl_cons]
    rcases ih (max a x) with h | h
    · rcases max_choice a x with h2 | h2
      · exact Or.inl (h.trans h2)
      · exact Or.inr (by rw [h, h2]; exact List.mem_cons_self x xs)
    · exact Or.inr (List.mem_cons_of_mem x h)

theorem le_listMax_of_mem {xs : List ℝ} {b : ℝ} (hb : b ∈ xs) : b ≤ listMax xs := by
  cases xs with
  | nil => cases hb
  | cons x xs =>
    rcases List.mem_cons.1 hb with rfl | hb
    · exact init_le_foldl_max xs b
    · exact mem_le_foldl_max xs x b hb

theorem listMax_mem {xs : List ℝ} (h : xs ≠ []) : listMax xs ∈ xs := by
  cases xs with
  | nil => exact absurd rfl h
  | cons x xs =>
    rcases foldl_max_eq_or_mem xs x with h2 | h2
    · show xs.foldl max x ∈ x :: xs
      rw [h2]; exact List.mem_cons_self x xs
    · exact List.mem_cons_of_mem x h2

theorem meanOf_pos {xs : List ℝ} (h : xs ≠ []) (hp : ∀ x ∈ xs, 0 < x) : 0 < meanOf xs := by
  have hlen : 0 < (xs.length : ℝ) := by
    exact_mod_cast List.length_pos.2 h
  exact div_pos (List.sum_pos xs hp h) hlen

theorem sum_eq_const_mul_length {xs : List ℝ} {c : ℝ} (hc : ∀ x ∈ xs, x = c) :
    xs.sum = c * xs.length := by
  induction xs with
  | nil => simp
  | cons x xs ih =>
    have hx : x = c := hc x (List.mem_cons_self x xs)
    have hxs : ∀ y ∈ xs, y = c := fun y hy => hc y (List.mem_cons_of_mem x hy)
    rw [List.sum_cons, ih hxs, hx, List.length_cons]
    push_cast
    ring

theorem meanOf_const {xs : List ℝ} {c : ℝ} (h : xs ≠ []) (hc : ∀ x ∈ xs, x = c) :
    meanOf xs = c := by
  have hlen : (xs.length : ℝ) ≠ 0 :=
    Nat.cast_ne_zero.mpr (List.length_pos.2 h).ne'
  rw [meanOf, sum_eq_const_mul_length hc, mul_div_assoc, div_self hlen, mul_one]

theorem varianceOf_const {xs : List ℝ} {c : ℝ} (hc : ∀ x ∈ xs, x = c) :
    varianceOf xs = 0 := by
  cases xs with
  | nil => simp [varianceOf, meanOf]
  | cons x xs =>
    have hm : meanOf (x :: xs) = c := meanOf_const (List.cons_ne_nil x xs) hc
    have hz : ∀ y ∈ (x :: xs).map (fun t => (t - meanOf (x :: xs)) ^ 2), y = 0 := by
      intro y hy
      obtain ⟨t, ht, rfl⟩ := List.mem_map.1 hy
      rw [hm, hc t ht, sub_self, pow_two, mul_zero]
    rw [varianceOf, meanOf, List.sum_eq_zero hz, zero_div]

theorem stdOf_const {xs : List ℝ} {c : ℝ} (hc : ∀ x ∈ xs, x = c) : stdOf xs = 0 := by
  rw [stdOf, varianceOf_const hc, Real.sqrt_zero]

/-! ### Facts about `sortAsc` -/

theorem sortAsc_sorted (xs : List ℝ) : (sortAsc xs).Sorted (· ≤ ·) :=
  List.sorted_insertionSort _ xs

theorem sortAsc_perm (xs : List ℝ) : List.Perm (sortAsc xs) xs :=
  List.perm_insertionSort _ xs

theorem sortAsc_length (xs : List ℝ) : (sortAsc xs).length = xs.length :=
  (sortAsc_perm xs).length_eq

theorem mem_sortAsc {xs : List ℝ} {a : ℝ} : a ∈ sortAsc xs ↔ a ∈ xs :=
  (sortAsc_perm xs).mem_iff

theorem sorted_getD_mono {s : List ℝ} (hs : s.Sorted (· ≤ ·)) {i j : ℕ} (hij : i ≤ j)
    (hj : j < s.length) : s.getD i 0 ≤ s.getD j 0 := by
  have hi : i < s.length := lt_of_le_of_lt hij hj
  rw [List.getD_eq_getElem s 0 hi, List.getD_eq_getElem s 0 hj]
  exact hs.rel_get_of_le (a := ⟨i, hi⟩) (b := ⟨j, hj⟩) hij

/-! ### Percentile interpolation lemmas -/

theorem interpAt_nil (x : ℝ) : interpAt [] x = 0 := by
  simp [interpAt]

theorem length_pos_of_index {s : List ℝ} {x : ℝ} (hx : 0 ≤ x)
    (hxn : x ≤ (s.length : ℝ) - 1) : 1 ≤ s.length := by
  rcases Nat.eq_zero_or_pos s.length with h0 | h0
  · rw [h0] at hxn
    norm_num at hxn
    linarith
  · exact h0

theorem floor_toNat_le {s : List ℝ} {x : ℝ} (hx : 0 ≤ x)
    (hxn : x ≤ (s.length : ℝ) - 1) : (⌊x⌋).toNat ≤ s.length - 1 := by
  have hn := length_pos_of_index hx hxn
  have hfl : (0 : ℤ) ≤ ⌊x⌋ := Int.floor_nonneg.2 hx
  have h2 : ((⌊x⌋).toNat : ℝ) = ((⌊x⌋ : ℤ) : ℝ) := by exact_mod_cast Int.toNat_of_nonneg hfl
  have h1 : ((⌊x⌋).toNat : ℝ) ≤ ((s.length - 1 : ℕ) : ℝ) := by
    rw [h2, Nat.cast_sub hn]
    push_cast
    exact le_trans (Int.floor_le x) hxn
  exact_mod_cast h1

theorem interpAt_ge_left {s : List ℝ} (hs : s.Sorted (· ≤ ·)) {x : ℝ} (hx : 0 ≤ x)
    (hxn : x ≤ (s.length : ℝ) - 1) : s.getD (⌊x⌋).toNat 0 ≤ interpAt s x := by
  have hn := length_pos_of_index hx hxn
  have hk := floor_toNat_le hx hxn
  have hk2n : min ((⌊x⌋).toNat + 1) (s.length - 1) < s.length :=
    lt_of_le_of_lt (min_le_right _ _) (Nat.sub_lt hn one_pos)
  have hmono : s.getD (⌊x⌋).toNat 0 ≤ s.getD (min ((⌊x⌋).toNat + 1) (s.length - 1)) 0 :=
    sorted_getD_mono hs (le_min (Nat.le_succ _) hk) hk2n
  have hfrac : 0 ≤ x - ⌊x⌋ := sub_nonneg.2 (Int.floor_le x)
  have := mul_nonneg hfrac (sub_nonneg.2 hmono)
  rw [interpAt]
  linarith

theorem interpAt_le_right {s : List ℝ} (hs : s.Sorted (· ≤ ·)) {x : ℝ} (hx : 0 ≤ x)
    (hxn : x ≤ (s.length : ℝ) - 1) :
    interpAt s x ≤ s.getD (min ((⌊x⌋).toNat + 1) (s.length - 1)) 0 := by
  have hn := length_pos_of_index hx hxn
  have hk := floor_toNat_le hx hxn
  have hk2n : min ((⌊x⌋).toNat + 1) (s.length - 1) < s.length :=
    lt_of_le_of_lt (min_le_right _ _) (Nat.sub_lt hn one_pos)
  have hmono : s.getD (⌊x⌋).toNat 0 ≤ s.getD (min ((⌊x⌋).toNat + 1) (s.length - 1)) 0 :=
    sorted_getD_mono hs (le_min (Nat.le_succ _) hk) hk2n
  have hfrac : x - ⌊x⌋ ≤ 1 := by
    have := Int.lt_floor_add_one x
    linarith
  rw [interpAt]
  nlinarith [sub_nonneg.2 hmono]

theorem interpAt_mono {s : List ℝ} (hs : s.Sorted (· ≤ ·)) {x y : ℝ} (hx : 0 ≤ x)
    (hxy : x ≤ y) (hy : y ≤ (s.length : ℝ) - 1) : interpAt s x ≤ interpAt s y := by
  have hx2 : 0 ≤ y := le_trans hx hxy
  have hxn : x ≤ (s.length : ℝ) - 1 := le_trans hxy hy
  have hn := length_pos_of_index hx hxn
  have hkl : (⌊x⌋).toNat ≤ (⌊y⌋).toNat := Int.toNat_le_toNat (Int.floor_mono hxy)
  rcases eq_or_lt_of_le hkl with heq | hlt
  · have hfloor : ⌊x⌋ = ⌊y⌋ := by
      have h1 := Int.toNat_of_nonneg (Int.floor_nonneg.2 hx)
      have h2 := Int.toNat_of_nonneg (Int.floor_nonneg.2 hx2)
      omega
    have hk := floor_toNat_le hx hxn
    have hk2n : min ((⌊x⌋).toNat + 1) (s.length - 1) < s.length :=
      lt_of_le_of_lt (min_le_right _ _) (Nat.sub_lt hn one_pos)
    have hmono : s.getD (⌊x⌋).toNat 0 ≤ s.getD (min ((⌊x⌋).toNat + 1) (s.length - 1)) 0 :=
      sorted_getD_mono hs (le_min (Nat.le_succ _) hk) hk2n
    rw [interpAt, interpAt, ← hfloor]
    nlinarith [sub_nonneg.2 hmono]
  · have hyk := floor_toNat_le hx2 hy
    have h1 : interpAt s x ≤ s.getD (min ((⌊x⌋).toNat + 1) (s.length - 1)) 0 :=
      interpAt_le_right hs hx hxn
    have h2 : s.getD (⌊y⌋).toNat 0 ≤ interpAt s y := interpAt_ge_left hs hx2 hy
    have h3 : s.getD (min ((⌊x⌋).toNat + 1) (s.length - 1)) 0 ≤ s.getD (⌊y⌋).toNat 0 :=
      sorted_getD_mono hs (le_trans (min_le_left _ _) hlt)
        (lt_of_le_of_lt hyk (Nat.sub_lt hn one_pos))
    linarith

/-- Monotonicity of the linear-interpolation percentile in the requested
percentage, for percentages within `[0, 100]`. -/
theorem percentile_mono (xs : List ℝ) {q1 q2 : ℝ} (h0 : 0 ≤ q1) (h12 : q1 ≤ q2)
    (h100 : q2 ≤ 100) : percentile xs q1 ≤ percentile xs q2 := by
  cases hxs : xs with
  | nil => simp [percentile, hxs, sortAsc, interpAt_nil]
  | cons a l =>
    rw [← hxs, percentile, percentile]
    have hn : 1 ≤ xs.length := by rw [hxs]; exact Nat.succ_le_succ (Nat.zero_le _)
    have hn1 : (0 : ℝ) ≤ (xs.length : ℝ) - 1 := by
      have : (1 : ℝ) ≤ (xs.length : ℝ) := by exact_mod_cast hn
      linarith
    have hq2 : 0 ≤ q2 := le_trans h0 h12
    apply interpAt_mono (sortAsc_sorted xs)
    · exact mul_nonneg (div_nonneg h0 (by norm_num)) hn1
    · exact mul_le_mul_of_nonneg_right (div_le_div_of_nonneg_right h12 (by norm_num)) hn1
    · rw [sortAsc_length]
      exact mul_le_of_le_one_left hn1 (by rw [div_le_one (by norm_num : (0:ℝ) < 100)]; exact h100)

/-- C5: the reported percentiles are non-decreasing and `var_95` is exactly
the 5th percentile of the P&L vector. -/
theorem c5_percentile_chain (pnl : List ℝ) (h : pnl ≠ []) :
    (calculate_risk_metrics pnl).percentile_5 ≤ (calculate_risk_metrics pnl).percentile_25 ∧
    (calculate_risk_metrics pnl).percentile_25 ≤ (calculate_risk_metrics pnl).percentile_50 ∧
    (calculate_risk_metrics pnl).percentile_50 ≤ (calculate_risk_metrics pnl).percentile_75 ∧
    (calculate_risk_metrics pnl).percentile_75 ≤ (calculate_risk_metrics pnl).percentile_95 ∧
    (calculate_risk_metrics pnl).var_95 = (calculate_risk_metrics pnl).percentile_5 := by
  refine ⟨?_, ?_, ?_, ?_, rfl⟩ <;>
    exact percentile_mono pnl (by norm_num) (by norm_num) (by norm_num)

/-- Witness for C5 at the concrete vector `[3, 1, 2]`. -/
theorem c5_percentile_chain_witness :
    ([(3 : ℝ), 1, 2] ≠ []) ∧
    ((calculate_risk_metrics [(3 : ℝ), 1, 2]).percentile_5 ≤
        (calculate_risk_metrics [(3 : ℝ), 1, 2]).percentile_25 ∧
      (calculate_risk_metrics [(3 : ℝ), 1, 2]).percentile_25 ≤
        (calculate_risk_metrics [(3 : ℝ), 1, 2]).percentile_50 ∧
      (calculate_risk_metrics [(3 : ℝ), 1, 2]).percentile_50 ≤
        (calculate_risk_metrics [(3 : ℝ), 1, 2]).percentile_75 ∧
      (calculate_risk_metrics [(3 : ℝ), 1, 2]).percentile_75 ≤
        (calculate_risk_metrics [(3 : ℝ), 1, 2]).percentile_95 ∧
      (calculate_risk_metrics [(3 : ℝ), 1, 2]).var_95 =
        (calculate_risk_metrics [(3 : ℝ), 1, 2]).percentile_5) :=
  ⟨by simp, c5_percentile_chain [(3 : ℝ), 1, 2] (by simp)⟩

/-! ### Branch equations for `calculate_pnl` -/

theorem calculate_pnl_no_hedge (volume spot_price futures_price : ℝ) (ps : List ℝ) :
    calculate_pnl volume spot_price futures_price ps "no_hedge" =
      .ok (ps.map fun p => volume * p) := by
  simp [calculate_pnl]

theorem calculate_pnl_full_hedge (volume spot_price futures_price : ℝ) (ps : List ℝ) :
    calculate_pnl volume spot_price futures_price ps "full_hedge" =
      .ok (ps.map fun _ => volume * futures_price) := by
  simp [calculate_pnl]

theorem calculate_pnl_half_hedge (volume spot_price futures_price : ℝ) (ps : List ℝ) :
    calculate_pnl volume spot_price futures_price ps "partial_hedge" =
      .ok (ps.map fun p => volume * 0.5 * futures_price + volume * (1 - 0.5) * p) := by
  simp [calculate_pnl]

theorem calculate_pnl_dynamic_hedge (volume spot_price futures_price : ℝ) (ps : List ℝ) :
    calculate_pnl volume spot_price futures_price ps "dynamic_hedge" =
      .ok (ps.map fun p =>
        volume * (min (max (0.5 + 0.5 * (futures_price - p) / futures_price) 0) 1) *
            futures_price +
          volume * (1 - min (max (0.5 + 0.5 * (futures_price - p) / futures_price) 0) 1) * p) := by
  simp [calculate_pnl]

/-- Sharpe-ratio algebra: the literal formula collapses to
`(1 − rate)·mean/std` (also at `mean = 0`, by the division conventions). -/
theorem sharpe_formula (m s : ℝ) : (m / m - 0.03) / (s / m) = (1 - 0.03) * m / s := by
  rcases eq_or_ne m 0 with hm | hm
  · subst hm; simp
  · rcases eq_or_ne s 0 with hs | hs
    · subst hs; simp [div_self hm]
    · field_simp

/-- C2: for a P&L vector with positive standard deviation the returned
Sharpe ratio is the literal expression `(mean/mean − 0.03)/(std/mean)`,
which equals `(1 − 0.03)·mean/std`; with zero standard deviation it is 0. -/
theorem c2_sharpe_ratio (pnl : List ℝ) (h : pnl ≠ []) :
    (0 < (calculate_risk_metrics pnl).std →
      (calculate_risk_metrics pnl).sharpe_ratio =
        ((calculate_risk_metrics pnl).mean / (calculate_risk_metrics pnl).mean - 0.03) /
          ((calculate_risk_metrics pnl).std / (calculate_risk_metrics pnl).mean) ∧
      (calculate_risk_metrics pnl).sharpe_ratio =
        (1 - 0.03) * (calculate_risk_metrics pnl).mean / (calculate_risk_metrics pnl).std) ∧
    ((calculate_risk_metrics pnl).std = 0 → (calculate_risk_metrics pnl).sharpe_ratio = 0) := by
  constructor
  · intro hstd
    simp only [calculate_risk_metrics] at hstd ⊢
    rw [if_pos hstd]
    exact ⟨rfl, sharpe_formula _ _⟩
  · intro hstd
    simp only [calculate_risk_metrics] at hstd ⊢
    rw [if_neg (by rw [hstd]; exact lt_irrefl 0)]

/-- Witness for C2 at the concrete vector `[0, 2]`. -/
theorem c2_sharpe_ratio_witness :
    ([(0 : ℝ), 2] ≠ []) ∧
    ((0 < (calculate_risk_metrics [(0 : ℝ), 2]).std →
      (calculate_risk_metrics [(0 : ℝ), 2]).sharpe_ratio =
        ((calculate_risk_metrics [(0 : ℝ), 2]).mean / (calculate_risk_metrics [(0 : ℝ), 2]).mean -
            0.03) /
          ((calculate_risk_metrics [(0 : ℝ), 2]).std / (calculate_risk_metrics [(0 : ℝ), 2]).mean) ∧
      (calculate_risk_metrics [(0 : ℝ), 2]).sharpe_ratio =
        (1 - 0.03) * (calculate_risk_metrics [(0 : ℝ), 2]).mean /
          (calculate_risk_metrics [(0 : ℝ), 2]).std) ∧
    ((calculate_risk_metrics [(0 : ℝ), 2]).std = 0 →
      (calculate_risk_metrics [(0 : ℝ), 2]).sharpe_ratio = 0)) :=
  ⟨by simp, c2_sharpe_ratio [(0 : ℝ), 2] (by simp)⟩

/-- C4: any strategy identifier outside the closed four-element set fails
with the "Unknown strategy" error; no default or partial result is
substituted. -/
theorem c4_unknown_strategy (volume spot_price futures_price : ℝ) (ps : List ℝ)
    (strategy : String)
    (hs : strategy ∉
      (["no_hedge", "full_hedge", "partial_hedge", "dynamic_hedge"] : List String)) :
    calculate_pnl volume spot_price futures_price ps strategy =
      .error ("Unknown strategy: " ++ strategy) := by
  simp only [List.mem_cons, List.not_mem_nil, or_false, not_or] at hs
  obtain ⟨h1, h2, h3, h4⟩ := hs
  simp [calculate_pnl, h1, h2, h3, h4]

/-- Witness for C4 at the concrete strategy string `"foo_hedge"`. -/
theorem c4_unknown_strategy_witness :
    ("foo_hedge" ∉ (["no_hedge", "full_hedge", "partial_hedge", "dynamic_hedge"] : List String)) ∧
    calculate_pnl 10000 4.5 4.5 [(4 : ℝ), 5] "foo_hedge" =
      .error ("Unknown strategy: " ++ "foo_hedge") :=
  ⟨by decide, c4_unknown_strategy 10000 4.5 4.5 [(4 : ℝ), 5] "foo_hedge" (by decide)⟩

/-- The minimum of a vector never exceeds any of its linear-interpolation
percentiles (for percentages in `[0, 100]`). -/
theorem listMin_le_percentile {xs : List ℝ} (h : xs ≠ []) {q : ℝ} (h0 : 0 ≤ q)
    (h100 : q ≤ 100) : listMin xs ≤ percentile xs q := by
  have hn : 1 ≤ xs.length := List.length_pos.2 h
  have hn1 : (0 : ℝ) ≤ (xs.length : ℝ) - 1 := by
    have : (1 : ℝ) ≤ (xs.length : ℝ) := by exact_mod_cast hn
    linarith
  have hx : 0 ≤ q / 100 * ((xs.length : ℝ) - 1) :=
    mul_nonneg (div_nonneg h0 (by norm_num)) hn1
  have hxn : q / 100 * ((xs.length : ℝ) - 1) ≤ ((sortAsc xs).length : ℝ) - 1 := by
    rw [sortAsc_length]
    exact mul_le_of_le_one_left hn1 (by rw [div_le_one (by norm_num : (0:ℝ) < 100)]; exact h100)
  have h1 := interpAt_ge_left (sortAsc_sorted xs) hx hxn
  have hk : (⌊q / 100 * ((xs.length : ℝ) - 1)⌋).toNat < (sortAsc xs).length :=
    lt_of_le_of_lt (floor_toNat_le hx hxn)
      (Nat.sub_lt (by rw [sortAsc_length]; exact hn) one_pos)
  have hmem : (sortAsc xs).getD (⌊q / 100 * ((xs.length : ℝ) - 1)⌋).toNat 0 ∈ sortAsc xs := by
    rw [List.getD_eq_getElem _ 0 hk]
    exact List.getElem_mem hk
  exact le_trans (listMin_le_of_mem (mem_sortAsc.1 hmem)) h1

/-- C9: the tail `{x ∈ pnl | x ≤ var_95}` over which `es_95` averages is
never empty, because the vector's minimum is at most the 5th percentile;
`es_95` is the mean of exactly that tail. -/
theorem c9_es_tail_nonempty (pnl : List ℝ) (h : pnl ≠ []) :
    listMin pnl ≤ (calculate_risk_metrics pnl).var_95 ∧
    (pnl.filter fun x => decide (x ≤ (calculate_risk_metrics pnl).var_95)) ≠ [] ∧
    (calculate_risk_metrics pnl).es_95 =
      meanOf (pnl.filter fun x => decide (x ≤ (calculate_risk_metrics pnl).var_95)) := by
  have hvar : (calculate_risk_metrics pnl).var_95 = percentile pnl 5 := rfl
  have h1 : listMin pnl ≤ percentile pnl 5 :=
    listMin_le_percentile h (by norm_num) (by norm_num)
  rw [hvar]
  refine ⟨h1, ?_, rfl⟩
  have hmem : listMin pnl ∈ pnl.filter fun x => decide (x ≤ percentile pnl 5) :=
    List.mem_filter.2 ⟨listMin_mem h, by simpa using h1⟩
  intro hempty
  rw [hempty] at hmem
  cases hmem

/-- Witness for C9 at the concrete vector `[5, 7]`. -/
theorem c9_es_tail_nonempty_witness :
    ([(5 : ℝ), 7] ≠ []) ∧
    (listMin [(5 : ℝ), 7] ≤ (calculate_risk_metrics [(5 : ℝ), 7]).var_95 ∧
     ([(5 : ℝ), 7].filter fun x => decide (x ≤ (calculate_risk_metrics [(5 : ℝ), 7]).var_95)) ≠
        [] ∧
     (calculate_risk_metrics [(5 : ℝ), 7]).es_95 =
       meanOf ([(5 : ℝ), 7].filter fun x =>
         decide (x ≤ (calculate_risk_metrics [(5 : ℝ), 7]).var_95))) :=
  ⟨by simp, c9_es_tail_nonempty [(5 : ℝ), 7] (by simp)⟩

/-- C3 (amended): whenever the NoHedge and FullHedge values of a scenario
differ, the PartialHedge value lies strictly between them (it is their
average); when they coincide all three values are equal. -/
theorem c3_half_hedge_between (volume spot_price futures_price : ℝ) (prices : List ℝ)
    (i : ℕ) (noh par ful : List ℝ)
    (hn : calculate_pnl volume spot_price futures_price prices "no_hedge" = .ok noh)
    (hp : calculate_pnl volume spot_price futures_price prices "partial_hedge" = .ok par)
    (hf : calculate_pnl volume spot_price futures_price prices "full_hedge" = .ok ful)
    (hi : i < prices.length)
    (hne : noh.getD i 0 ≠ ful.getD i 0) :
    min (noh.getD i 0) (ful.getD i 0) < par.getD i 0 ∧
    par.getD i 0 < max (noh.getD i 0) (ful.getD i 0) := by
  rw [calculate_pnl_no_hedge] at hn
  rw [calculate_pnl_half_hedge] at hp
  rw [calculate_pnl_full_hedge] at hf
  injection hn with hn
  injection hp with hp
  injection hf with hf
  subst hn hp hf
  have hmap : ∀ f : ℝ → ℝ, (prices.map f).getD i 0 = f prices[i] := by
    intro f
    rw [List.getD_eq_getElem _ 0 (by simpa using hi)]
    simp
  simp only [hmap] at hne ⊢
  have hpar : volume * 0.5 * futures_price + volume * (1 - 0.5) * prices[i] =
      (volume * prices[i] + volume * futures_price) / 2 := by ring
  rw [hpar]
  rcases lt_or_gt_of_ne hne with hlt | hlt
  · rw [min_eq_left hlt.le, max_eq_right hlt.le]
    constructor <;> linarith
  · rw [min_eq_right hlt.le, max_eq_left hlt.le]
    constructor <;> linarith

/-- Witness for the amended C3 at volume 1, futures price 1 and the price
vector `[2]`. -/
theorem c3_half_hedge_between_witness :
    calculate_pnl 1 1 1 [(2 : ℝ)] "no_hedge" = .ok [2] ∧
    calculate_pnl 1 1 1 [(2 : ℝ)] "partial_hedge" = .ok [1.5] ∧
    calculate_pnl 1 1 1 [(2 : ℝ)] "full_hedge" = .ok [1] ∧
    (0 : ℕ) < [(2 : ℝ)].length ∧ ([(2 : ℝ)] : List ℝ).getD 0 0 ≠ 0 ∧
    (min (([(2 : ℝ)] : List ℝ).getD 0 0) (([(1 : ℝ)] : List ℝ).getD 0 0) <
        ([(1.5 : ℝ)] : List ℝ).getD 0 0 ∧
      ([(1.5 : ℝ)] : List ℝ).getD 0 0 <
        max (([(2 : ℝ)] : List ℝ).getD 0 0) (([(1 : ℝ)] : List ℝ).getD 0 0)) := by
  have hn : calculate_pnl 1 1 1 [(2 : ℝ)] "no_hedge" = .ok [2] := by
    rw [calculate_pnl_no_hedge]; norm_num
  have hp : calculate_pnl 1 1 1 [(2 : ℝ)] "partial_hedge" = .ok [1.5] := by
    rw [calculate_pnl_half_hedge]; norm_num
  have hf : calculate_pnl 1 1 1 [(2 : ℝ)] "full_hedge" = .ok [1] := by
    rw [calculate_pnl_full_hedge]; norm_num
  refine ⟨hn, hp, hf, by norm_num, by norm_num, ?_⟩
  exact c3_half_hedge_between 1 1 1 [(2 : ℝ)] 0 [2] [1.5] [1] hn hp hf (by norm_num)
    (by norm_num)

/-- C3 is false as stated: with volatility 1, a 12-month horizon and the
draw `z = 0.48` the GBM exponent vanishes, the simulated price equals the
futures price, all three strategy values coincide, and PartialHedge is not
strictly between the other two. -/
theorem c3_counterexample :
    simulate_prices ⟨"CORN", 4.5, 1⟩ 1 12 [0.48] = [1] ∧
    calculate_pnl 1 1 1 (simulate_prices ⟨"CORN", 4.5, 1⟩ 1 12 [0.48]) "no_hedge" = .ok [1] ∧
    calculate_pnl 1 1 1 (simulate_prices ⟨"CORN", 4.5, 1⟩ 1 12 [0.48]) "partial_hedge" =
      .ok [1] ∧
    calculate_pnl 1 1 1 (simulate_prices ⟨"CORN", 4.5, 1⟩ 1 12 [0.48]) "full_hedge" = .ok [1] ∧
    ¬(min (([(1 : ℝ)] : List ℝ).getD 0 0) (([(1 : ℝ)] : List ℝ).getD 0 0) <
        ([(1 : ℝ)] : List ℝ).getD 0 0 ∧
      ([(1 : ℝ)] : List ℝ).getD 0 0 <
        max (([(1 : ℝ)] : List ℝ).getD 0 0) (([(1 : ℝ)] : List ℝ).getD 0 0)) := by
  have hp : simulate_prices ⟨"CORN", 4.5, 1⟩ 1 12 [0.48] = [1] := by
    rw [simulate_prices]
    have harg : (0.02 - 0.5 * (1 : ℝ) ^ 2) * (12 / 12) + 1 * Real.sqrt (12 / 12) * 0.48 = 0 := by
      rw [show (12 : ℝ) / 12 = 1 by norm_num, Real.sqrt_one]
      norm_num
    simp only [List.map_cons, List.map_nil]
    rw [harg, Real.exp_zero, mul_one]
  refine ⟨hp, ?_, ?_, ?_, by norm_num⟩
  · rw [hp, calculate_pnl_no_hedge]; norm_num
  · rw [hp, calculate_pnl_half_hedge]; norm_num
  · rw [hp, calculate_pnl_full_hedge]; norm_num

/-- C7: with zero volatility every simulated terminal price equals
`spot_price·exp(0.02·horizon/12)` regardless of the draws, and the standard
deviation of the price vector and of the FullHedge P&L vector is zero. -/
theorem c7_zero_volatility (sim : CommoditySimulator)
    (spot_price time_horizon volume : ℝ) (z : List ℝ) (hv : sim.volatility = 0)
    (hs : 0 < spot_price) (hh : 0 < time_horizon) (hz : z ≠ []) :
    (∀ p ∈ simulate_prices sim spot_price time_horizon z,
        p = spot_price * Real.exp (0.02 * (time_horizon / 12))) ∧
    stdOf (simulate_prices sim spot_price time_horizon z) = 0 ∧
    ∀ pnl, calculate_pnl volume spot_price spot_price
        (simulate_prices sim spot_price time_horizon z) "full_hedge" = .ok pnl →
      stdOf pnl = 0 := by
  have hall : ∀ p ∈ simulate_prices sim spot_price time_horizon z,
      p = spot_price * Real.exp (0.02 * (time_horizon / 12)) := by
    intro p hp
    rw [simulate_prices] at hp
    obtain ⟨zi, _, rfl⟩ := List.mem_map.1 hp
    rw [hv]
    norm_num
  refine ⟨hall, stdOf_const hall, ?_⟩
  intro pnl hpnl
  rw [calculate_pnl_full_hedge] at hpnl
  injection hpnl with hpnl
  refine stdOf_const (c := volume * spot_price) ?_
  intro y hy
  rw [← hpnl] at hy
  obtain ⟨_, _, rfl⟩ := List.mem_map.1 hy
  rfl

/-- Witness for C7 with volatility 0, spot 1, horizon 12 and draw list
`[5]`. -/
theorem c7_zero_volatility_witness :
    ((⟨"CORN", 1, 0⟩ : CommoditySimulator).volatility = 0 ∧ (0 : ℝ) < 1 ∧ (0 : ℝ) < 12 ∧
      ([(5 : ℝ)] : List ℝ) ≠ []) ∧
    ((∀ p ∈ simulate_prices ⟨"CORN", 1, 0⟩ 1 12 [(5 : ℝ)],
        p = 1 * Real.exp (0.02 * (12 / 12))) ∧
     stdOf (simulate_prices ⟨"CORN", 1, 0⟩ 1 12 [(5 : ℝ)]) = 0 ∧
     ∀ pnl, calculate_pnl 3 1 1 (simulate_prices ⟨"CORN", 1, 0⟩ 1 12 [(5 : ℝ)]) "full_hedge" =
         .ok pnl → stdOf pnl = 0) :=
  ⟨⟨rfl, by norm_num, by norm_num, by simp⟩,
    c7_zero_volatility ⟨"CORN", 1, 0⟩ 1 12 3 [(5 : ℝ)] rfl (by norm_num) (by norm_num)
      (by simp)⟩

/-- The clipped dynamic hedge ratio lies in `[0, 1]` and keeps the combined
revenue positive for positive prices. -/
theorem dynamic_term_pos {volume futures_price p : ℝ} (hv : 0 < volume)
    (hf : 0 < futures_price) (hp : 0 < p) :
    0 < volume * (min (max (0.5 + 0.5 * (futures_price - p) / futures_price) 0) 1) *
          futures_price +
        volume * (1 - min (max (0.5 + 0.5 * (futures_price - p) / futures_price) 0) 1) * p := by
  set r := min (max (0.5 + 0.5 * (futures_price - p) / futures_price) 0) 1 with hr
  have hr0 : 0 ≤ r := le_min (le_max_right _ _) zero_le_one
  have hr1 : r ≤ 1 := min_le_right _ _
  have hinner : 0 < r * futures_price + (1 - r) * p := by
    rcases eq_or_lt_of_le hr0 with heq | hlt
    · rw [← heq]
      simpa using hp
    · exact add_pos_of_pos_of_nonneg (mul_pos hlt hf)
        (mul_nonneg (by linarith) hp.le)
  have hfactor : volume * r * futures_price + volume * (1 - r) * p =
      volume * (r * futures_price + (1 - r) * p) := by ring
  rw [hfactor]
  exact mul_pos hv hinner

/-- C8: for positive volume, futures price and simulated prices, each of the
four recognized strategies yields a P&L vector with strictly positive
entries; hence its mean is strictly positive and in particular non-zero, so
the Sharpe-ratio divisions by the mean never divide by zero. -/
theorem c8_positive_pnl (volume spot_price futures_price : ℝ) (prices : List ℝ)
    (strategy : String) (hv : 0 < volume) (hf : 0 < futures_price)
    (hp : ∀ p ∈ prices, 0 < p) (hne : prices ≠ [])
    (hs : strategy ∈
      (["no_hedge", "full_hedge", "partial_hedge", "dynamic_hedge"] : List String)) :
    ∃ pnl, calculate_pnl volume spot_price futures_price prices strategy = .ok pnl ∧
      (∀ x ∈ pnl, 0 < x) ∧ 0 < meanOf pnl ∧ meanOf pnl ≠ 0 := by
  have hmapne : ∀ f : ℝ → ℝ, prices.map f ≠ [] := by
    intro f hEq
    exact hne (List.map_eq_nil_iff.1 hEq)
  have finish : ∀ pnl : List ℝ, pnl ≠ [] → (∀ x ∈ pnl, 0 < x) →
      (∀ x ∈ pnl, 0 < x) ∧ 0 < meanOf pnl ∧ meanOf pnl ≠ 0 := by
    intro pnl hne2 hpos
    exact ⟨hpos, meanOf_pos hne2 hpos, (meanOf_pos hne2 hpos).ne'⟩
  simp only [List.mem_cons, List.not_mem_nil, or_false] at hs
  rcases hs with rfl | rfl | rfl | rfl
  · refine ⟨_, calculate_pnl_no_hedge volume spot_price futures_price prices, finish _ (hmapne _) ?_⟩
    intro x hx
    obtain ⟨p, hpm, rfl⟩ := List.mem_map.1 hx
    exact mul_pos hv (hp p hpm)
  · refine ⟨_, calculate_pnl_full_hedge volume spot_price futures_price prices,
      finish _ (hmapne _) ?_⟩
    intro x hx
    obtain ⟨p, hpm, rfl⟩ := List.mem_map.1 hx
    exact mul_pos hv hf
  · refine ⟨_, calculate_pnl_half_hedge volume spot_price futures_price prices,
      finish _ (hmapne _) ?_⟩
    intro x hx
    obtain ⟨p, hpm, rfl⟩ := List.mem_map.1 hx
    have h1 : 0 < volume * 0.5 * futures_price :=
      mul_pos (mul_pos hv (by norm_num)) hf
    have h2 : 0 < volume * (1 - 0.5) * p :=
      mul_pos (mul_pos hv (by norm_num)) (hp p hpm)
    linarith
  · refine ⟨_, calculate_pnl_dynamic_hedge volume spot_price futures_price prices,
      finish _ (hmapne _) ?_⟩
    intro x hx
    obtain ⟨p, hpm, rfl⟩ := List.mem_map.1 hx
    exact dynamic_term_pos hv hf (hp p hpm)

/-- Witness for C8 with volume 2, futures price 3, price vector `[1, 4]` and
the dynamic hedge strategy. -/
theorem c8_positive_pnl_witness :
    ((0 : ℝ) < 2 ∧ (0 : ℝ) < 3 ∧ (∀ p ∈ [(1 : ℝ), 4], 0 < p) ∧ ([(1 : ℝ), 4] ≠ []) ∧
      "dynamic_hedge" ∈
        (["no_hedge", "full_hedge", "partial_hedge", "dynamic_hedge"] : List String)) ∧
    ∃ pnl, calculate_pnl 2 3 3 [(1 : ℝ), 4] "dynamic_hedge" = .ok pnl ∧
      (∀ x ∈ pnl, 0 < x) ∧ 0 < meanOf pnl ∧ meanOf pnl ≠ 0 :=
  ⟨⟨by norm_num,
    by norm_num,
    by
      intro p hp
      simp only [List.mem_cons, List.not_mem_nil, or_false] at hp
      rcases hp with rfl | rfl <;> norm_num,
    by simp,
    by decide⟩,
    c8_positive_pnl 2 3 3 [(1 : ℝ), 4] "dynamic_hedge" (by norm_num) (by norm_num)
      (by
        intro p hp
        simp only [List.mem_cons, List.not_mem_nil, or_false] at hp
        rcases hp with rfl | rfl <;> norm_num)
      (by simp) (by decide)⟩

/-- The `np.median` of a non-empty vector coincides with its 50th
linear-interpolation percentile. -/
theorem medianOf_eq_percentile_50 (xs : List ℝ) (h : xs ≠ []) :
    medianOf xs = percentile xs 50 := by
  have hn : 1 ≤ xs.length := List.length_pos.2 h
  simp only [medianOf, percentile, sortAsc_length]
  rcases Nat.even_or_odd xs.length with he | ho
  · obtain ⟨m, hm⟩ := he
    have hm1 : 1 ≤ m := by omega
    have hval : (50 : ℝ) / 100 * ((xs.length : ℝ) - 1) = (m : ℝ) - 1 / 2 := by
      rw [hm]; push_cast; ring
    have hfloor : ⌊(50 : ℝ) / 100 * ((xs.length : ℝ) - 1)⌋ = (m : ℤ) - 1 := by
      rw [hval]
      refine Int.floor_eq_iff.2 ⟨by push_cast; linarith, by push_cast; linarith⟩
    have hmod : ¬ xs.length % 2 = 1 := by omega
    rw [if_neg hmod, interpAt, hfloor, hval]
    have htoNat : ((m : ℤ) - 1).toNat = m - 1 := by omega
    have hdiv : xs.length / 2 = m := by omega
    rw [htoNat, hdiv, sortAsc_length]
    have hmin : min (m - 1 + 1) (xs.length - 1) = m := by omega
    rw [hmin]
    push_cast
    ring
  · obtain ⟨m, hm⟩ := ho
    have hval : (50 : ℝ) / 100 * ((xs.length : ℝ) - 1) = ((m : ℕ) : ℝ) := by
      rw [hm]; push_cast; ring
    have hfloor : ⌊(50 : ℝ) / 100 * ((xs.length : ℝ) - 1)⌋ = ((m : ℕ) : ℤ) := by
      rw [hval]; exact Int.floor_natCast m
    have hmod : xs.length % 2 = 1 := by omega
    have hdiv : xs.length / 2 = m := by omega
    rw [if_pos hmod, interpAt, hfloor, hval, hdiv]
    simp

/-- Unfolding equation for `run_simulation` when the strategy dispatch
succeeds. -/
theorem run_simulation_ok (sim : CommoditySimulator)
    (volume spot_price time_horizon : ℝ) (strategy : String) (z : List ℝ) (pnl : List ℝ)
    (h : calculate_pnl volume (if spot_price = 0 then sim.current_price else spot_price)
        (if spot_price = 0 then sim.current_price else spot_price)
        (simulate_prices sim (if spot_price = 0 then sim.current_price else spot_price)
          time_horizon z) strategy = .ok pnl) :
    run_simulation sim volume spot_price time_horizon strategy z =
      .ok { strategy := strategy
            commodity := sim.commodity
            spot_price := if spot_price = 0 then sim.current_price else spot_price
            volume := volume
            time_horizon := time_horizon
            n_simulations := z.length
            metrics := calculate_risk_metrics pnl
            histogram := (histCounts pnl, histEdges pnl)
            price_distribution :=
              (histCounts (simulate_prices sim
                  (if spot_price = 0 then sim.current_price else spot_price) time_horizon z),
               histEdges (simulate_prices sim
                  (if spot_price = 0 then sim.current_price else spot_price) time_horizon z))
            sample_scenarios :=
              { best_case := listMax pnl
                worst_case := listMin pnl
                median := medianOf pnl } } := by
  unfold run_simulation
  rw [h]

/-- C10: for every successful run the scenario scalars duplicate the risk
metrics: `best_case = metrics.max`, `worst_case = metrics.min`, and the
`np.median` equals the 50th linear-interpolation percentile. -/
theorem c10_sample_scenarios (sim : CommoditySimulator)
    (volume spot_price time_horizon : ℝ) (strategy : String) (z : List ℝ)
    (hs : strategy ∈
      (["no_hedge", "full_hedge", "partial_hedge", "dynamic_hedge"] : List String))
    (hz : z ≠ []) :
    ∃ r, run_simulation sim volume spot_price time_horizon strategy z = .ok r ∧
      r.sample_scenarios.best_case = r.metrics.max ∧
      r.sample_scenarios.worst_case = r.metrics.min ∧
      r.sample_scenarios.median = r.metrics.percentile_50 := by
  have hpne : simulate_prices sim (if spot_price = 0 then sim.current_price else spot_price)
      time_horizon z ≠ [] := by
    rw [simulate_prices]
    intro hEq
    exact hz (List.map_eq_nil_iff.1 hEq)
  have hmapne : ∀ f : ℝ → ℝ,
      (simulate_prices sim (if spot_price = 0 then sim.current_price else spot_price)
        time_horizon z).map f ≠ [] := by
    intro f hEq
    exact hpne (List.map_eq_nil_iff.1 hEq)
  simp only [List.mem_cons, List.not_mem_nil, or_false] at hs
  rcases hs with rfl | rfl | rfl | rfl
  · exact ⟨_, run_simulation_ok sim volume spot_price time_horizon _ z _
      (calculate_pnl_no_hedge volume _ _ _), rfl, rfl,
      medianOf_eq_percentile_50 _ (hmapne _)⟩
  · exact ⟨_, run_simulation_ok sim volume spot_price time_horizon _ z _
      (calculate_pnl_full_hedge volume _ _ _), rfl, rfl,
      medianOf_eq_percentile_50 _ (hmapne _)⟩
  · exact ⟨_, run_simulation_ok sim volume spot_price time_horizon _ z _
      (calculate_pnl_half_hedge volume _ _ _), rfl, rfl,
      medianOf_eq_percentile_50 _ (hmapne _)⟩
  · exact ⟨_, run_simulation_ok sim volume spot_price time_horizon _ z _
      (calculate_pnl_dynamic_hedge volume _ _ _), rfl, rfl,
      medianOf_eq_percentile_50 _ (hmapne _)⟩

/-- Witness for C10 at a concrete full-hedge run with two draws. -/
theorem c10_sample_scenarios_witness :
    ("full_hedge" ∈
      (["no_hedge", "full_hedge", "partial_hedge", "dynamic_hedge"] : List String) ∧
     ([(0 : ℝ), 1] ≠ [])) ∧
    ∃ r, run_simulation ⟨"CORN", 4.5, 0.25⟩ 10000 4.5 6 "full_hedge" [(0 : ℝ), 1] = .ok r ∧
      r.sample_scenarios.best_case = r.metrics.max ∧
      r.sample_scenarios.worst_case = r.metrics.min ∧
      r.sample_scenarios.median = r.metrics.percentile_50 :=
  ⟨⟨by decide, by simp⟩,
    c10_sample_scenarios ⟨"CORN", 4.5, 0.25⟩ 10000 4.5 6 "full_hedge" [(0 : ℝ), 1]
      (by decide) (by simp)⟩

/-- C1 (amended): `run_simulation` performs no validation of volume, horizon
or simulation count: with non-positive volume and a recognized strategy it
still succeeds and returns a full result, while `spot_price = 0` is resolved
to the market price rather than rejected. -/
theorem c1_no_validation (sim : CommoditySimulator) (volume time_horizon : ℝ)
    (strategy : String) (z : List ℝ) (hv : volume ≤ 0)
    (hs : strategy ∈
      (["no_hedge", "full_hedge", "partial_hedge", "dynamic_hedge"] : List String)) :
    ∃ r, run_simulation sim volume 0 time_horizon strategy z = .ok r ∧
      r.spot_price = sim.current_price := by
  have h0 : (if (0 : ℝ) = 0 then sim.current_price else (0 : ℝ)) = sim.current_price :=
    if_pos rfl
  simp only [List.mem_cons, List.not_mem_nil, or_false] at hs
  rcases hs with rfl | rfl | rfl | rfl
  · exact ⟨_, run_simulation_ok sim volume 0 time_horizon _ z _
      (calculate_pnl_no_hedge volume _ _ _), h0⟩
  · exact ⟨_, run_simulation_ok sim volume 0 time_horizon _ z _
      (calculate_pnl_full_hedge volume _ _ _), h0⟩
  · exact ⟨_, run_simulation_ok sim volume 0 time_horizon _ z _
      (calculate_pnl_half_hedge volume _ _ _), h0⟩
  · exact ⟨_, run_simulation_ok sim volume 0 time_horizon _ z _
      (calculate_pnl_dynamic_hedge volume _ _ _), h0⟩

/-- Witness for the amended C1: a run with volume `−1` (and the spot-price
sentinel 0) succeeds and reports the market price. -/
theorem c1_no_validation_witness :
    ((-1 : ℝ) ≤ 0 ∧
     "no_hedge" ∈
       (["no_hedge", "full_hedge", "partial_hedge", "dynamic_hedge"] : List String)) ∧
    ∃ r, run_simulation ⟨"CORN", 4.5, 0.25⟩ (-1) 0 6 "no_hedge" [(0 : ℝ)] = .ok r ∧
      r.spot_price = (⟨"CORN", 4.5, 0.25⟩ : CommoditySimulator).current_price :=
  ⟨⟨by norm_num, by decide⟩,
    c1_no_validation ⟨"CORN", 4.5, 0.25⟩ (-1) 6 "no_hedge" [(0 : ℝ)] (by norm_num)
      (by decide)⟩

/-- C1 is false as stated: a request with non-positive volume `−1` does not
fail at all; `run_simulation` returns a successful result. -/
theorem c1_counterexample :
    (run_simulation ⟨"CORN", 4.5, 0.25⟩ (-1) 0 6 "no_hedge" [(0 : ℝ)]).isOk = true := by
  rw [run_simulation_ok ⟨"CORN", 4.5, 0.25⟩ (-1) 0 6 "no_hedge" [(0 : ℝ)] _
    (calculate_pnl_no_hedge (-1) _ _ _)]
  rfl

/-! ### Histogram lemmas -/

/-- Membership test of value `v` in histogram bin `i`: the same predicate
that `binCount` counts. -/
noncomputable def binMem (lo w : ℝ) (bins : ℕ) (i : ℕ) (v : ℝ) : Bool :=
  if i + 1 = bins then decide (lo + i * w ≤ v) && decide (v ≤ lo + (i + 1) * w)
  else decide (lo + i * w ≤ v) && decide (v < lo + (i + 1) * w)

theorem binCount_eq_countP (lo w : ℝ) (bins : ℕ) (values : List ℝ) (i : ℕ) :
    binCount lo w bins values i = values.countP (binMem lo w bins i) := by
  by_cases hc : i + 1 = bins
  · rw [binCount, if_pos hc]
    congr 1
    funext v
    rw [binMem, if_pos hc]
  · rw [binCount, if_neg hc]
    congr 1
    funext v
    rw [binMem, if_neg hc]

theorem sum_map_add {β : Type} (l : List β) (f g : β → ℕ) :
    (l.map fun x => f x + g x).sum = (l.map f).sum + (l.map g).sum := by
  induction l with
  | nil => simp
  | cons x l ih =>
    simp only [List.map_cons, List.sum_cons, ih]
    omega

theorem sum_map_ite {β : Type} (l : List β) (p : β → Bool) :
    (l.map fun x => if p x then 1 else 0).sum = l.countP p := by
  induction l with
  | nil => simp
  | cons x l ih =>
    rw [List.map_cons, List.sum_cons, ih, List.countP_cons]
    omega

theorem sum_map_one (l : List ℝ) : (l.map fun _ => 1).sum = l.length := by
  induction l with
  | nil => rfl
  | cons x l ih =>
    simp only [List.map_cons, List.sum_cons, ih, List.length_cons]
    omega

/-- Double-counting: summing per-bin counts over all bins equals summing,
per value, the number of bins that contain it. -/
theorem countP_range_swap {β : Type} (n : ℕ) (l : List β) (p : ℕ → β → Bool) :
    ((List.range n).map fun i => l.countP (p i)).sum =
      (l.map fun v => (List.range n).countP fun i => p i v).sum := by
  induction l with
  | nil => simp
  | cons v l ih =>
    calc ((List.range n).map fun i => List.countP (p i) (v :: l)).sum
        = ((List.range n).map fun i =>
            List.countP (p i) l + if p i v then 1 else 0).sum := by
          refine congrArg List.sum (List.map_congr_left fun i _ => ?_)
          rw [List.countP_cons]
      _ = ((List.range n).map fun i => List.countP (p i) l).sum +
          ((List.range n).map fun i => if p i v then 1 else 0).sum :=
            sum_map_add _ _ _
      _ = ((List.range n).map fun i => List.countP (p i) l).sum +
          (List.range n).countP (fun i => p i v) := by rw [sum_map_ite]
      _ = ((v :: l).map fun u => (List.range n).countP fun i => p i u).sum := by
          rw [List.map_cons, List.sum_cons, ih]
          omega

/-- Every value inside the histogram range falls into exactly one of the `n`
equal-width bins (the last bin being right-closed). -/
theorem countP_binMem_eq_one (n : ℕ) (hn : 0 < n) (lo w v : ℝ) (hw : 0 < w)
    (hv1 : lo ≤ v) (hv2 : v ≤ lo + n * w) :
    (List.range n).countP (fun i => binMem lo w n i v) = 1 := by
  have hfl0 : (0 : ℤ) ≤ ⌊(v - lo) / w⌋ :=
    Int.floor_nonneg.2 (div_nonneg (by linarith) hw.le)
  have hchar : ∀ i ∈ List.range n,
      (binMem lo w n i v = true) ↔
        ((i == min (n - 1) (⌊(v - lo) / w⌋).toNat) = true) := by
    intro i hi
    have hin : i < n := List.mem_range.1 hi
    rw [beq_iff_eq, binMem]
    by_cases hi1 : i + 1 = n
    · rw [if_pos hi1]
      simp only [Bool.and_eq_true, decide_eq_true_eq]
      constructor
      · rintro ⟨hle, hub⟩
        have h3 : (i : ℝ) ≤ (v - lo) / w := by
          rw [le_div_iff₀ hw]; linarith
        have h4 : (i : ℤ) ≤ ⌊(v - lo) / w⌋ := Int.le_floor.2 (by exact_mod_cast h3)
        omega
      · rintro rfl
        constructor
        · have h5 : ((min (n - 1) (⌊(v - lo) / w⌋).toNat : ℕ) : ℤ) ≤ ⌊(v - lo) / w⌋ := by
            omega
          have h6 : ((min (n - 1) (⌊(v - lo) / w⌋).toNat : ℕ) : ℝ) ≤ (v - lo) / w :=
            le_trans (by exact_mod_cast h5) (Int.floor_le _)
          rw [le_div_iff₀ hw] at h6
          linarith
        · have h7 : ((min (n - 1) (⌊(v - lo) / w⌋).toNat : ℕ) : ℝ) + 1 = (n : ℝ) := by
            exact_mod_cast hi1
          rw [h7]
          linarith
    · rw [if_neg hi1]
      simp only [Bool.and_eq_true, decide_eq_true_eq]
      constructor
      · rintro ⟨hle, hub⟩
        have h3 : (i : ℝ) ≤ (v - lo) / w := by
          rw [le_div_iff₀ hw]; linarith
        have h4 : (v - lo) / w < (i : ℝ) + 1 := by
          rw [div_lt_iff₀ hw]; linarith
        have h5 : ⌊(v - lo) / w⌋ = (i : ℤ) :=
          Int.floor_eq_iff.2 ⟨by exact_mod_cast h3, by push_cast; exact h4⟩
        omega
      · rintro rfl
        have h5 : ⌊(v - lo) / w⌋ = ((min (n - 1) (⌊(v - lo) / w⌋).toNat : ℕ) : ℤ) := by
          omega
        have h6 : ((min (n - 1) (⌊(v - lo) / w⌋).toNat : ℕ) : ℝ) ≤ (v - lo) / w := by
          have hfl := Int.floor_le ((v - lo) / w)
          rw [h5] at hfl
          exact_mod_cast hfl
        have h7 : (v - lo) / w < ((min (n - 1) (⌊(v - lo) / w⌋).toNat : ℕ) : ℝ) + 1 := by
          have hfl := Int.lt_floor_add_one ((v - lo) / w)
          rw [h5] at hfl
          exact_mod_cast hfl
        constructor
        · rw [le_div_iff₀ hw] at h6; linarith
        · rw [div_lt_iff₀ hw] at h7; linarith
  rw [List.countP_congr hchar]
  exact List.count_eq_one_of_mem (List.nodup_range n) (List.mem_range.2 (by omega))

theorem histRange_bounds (values : List ℝ) (h : values ≠ []) :
    (histRange values).1 < (histRange values).2 ∧
    ∀ v ∈ values, (histRange values).1 ≤ v ∧ v ≤ (histRange values).2 := by
  have hminmax : listMin values ≤ listMax values :=
    listMin_le_of_mem (listMax_mem h)
  simp only [histRange]
  by_cases hc : listMin values = listMax values
  · rw [if_pos hc]
    dsimp only
    refine ⟨by linarith, fun v hv => ?_⟩
    have h1 := listMin_le_of_mem hv
    have h2 := le_listMax_of_mem hv
    constructor <;> linarith
  · rw [if_neg hc]
    exact ⟨lt_of_le_of_ne hminmax hc,
      fun v hv => ⟨listMin_le_of_mem hv, le_listMax_of_mem hv⟩⟩

/-- The 50 bin counts of `np.histogram` always sum to the number of input
values. -/
theorem histCounts_sum (values : List ℝ) (h : values ≠ []) :
    (histCounts values).sum = values.length := by
  obtain ⟨hlt, hbounds⟩ := histRange_bounds values h
  have hw : 0 < ((histRange values).2 - (histRange values).1) / 50 :=
    div_pos (sub_pos.2 hlt) (by norm_num)
  rw [histCounts]
  rw [show ((List.range 50).map (binCount (histRange values).1
        (((histRange values).2 - (histRange values).1) / 50) 50 values)) =
      ((List.range 50).map fun i => values.countP (binMem (histRange values).1
        (((histRange values).2 - (histRange values).1) / 50) 50 i)) from
    List.map_congr_left fun i _ => binCount_eq_countP _ _ _ _ _]
  rw [countP_range_swap]
  have h2 : ∀ v ∈ values,
      ((List.range 50).countP fun i => binMem (histRange values).1
        (((histRange values).2 - (histRange values).1) / 50) 50 i v) = 1 := by
    intro v hv
    refine countP_binMem_eq_one 50 (by norm_num) _ _ v hw (hbounds v hv).1 ?_
    have heq : (histRange values).1 + ((50 : ℕ) : ℝ) *
        (((histRange values).2 - (histRange values).1) / 50) = (histRange values).2 := by
      push_cast
      ring
    rw [heq]
    exact (hbounds v hv).2
  rw [List.map_congr_left h2]
  exact sum_map_one values

theorem getD_map_range {α : Type} (n : ℕ) (f : ℕ → α) (d : α) (i : ℕ) (h : i < n) :
    ((List.range n).map f).getD i d = f i := by
  rw [List.getD_eq_getElem _ _ (by simp [h])]
  simp

/-- C6 (amended): the 50 bin counts always sum to the number of input
values; when `min < max` the 51 equally spaced edges run exactly from the
minimum to the maximum and the right-closed last bin contains the maximum;
when all values coincide `np.histogram` instead uses the expanded range
`[min − 0.5, max + 0.5]`. -/
theorem c6_histogram (values : List ℝ) (h : values ≠ []) :
    (histCounts values).sum = values.length ∧
    (histEdges values).length = 51 ∧
    (histCounts values).length = 50 ∧
    (listMin values < listMax values →
      (histEdges values).getD 0 0 = listMin values ∧
      (histEdges values).getD 50 0 = listMax values ∧
      (∀ i < 50, (histEdges values).getD (i + 1) 0 - (histEdges values).getD i 0 =
        (listMax values - listMin values) / 50) ∧
      1 ≤ (histCounts values).getD 49 0) := by
  refine ⟨histCounts_sum values h, by simp [histEdges], by simp [histCounts], fun hlt => ?_⟩
  have hr : histRange values = (listMin values, listMax values) := by
    rw [histRange, if_neg (ne_of_lt hlt)]
  have hedge : ∀ i, i < 51 → (histEdges values).getD i 0 =
      listMin values + i * ((listMax values - listMin values) / 50) := by
    intro i hi
    rw [histEdges, getD_map_range 51 _ 0 i hi, hr]
  have hd : 0 < listMax values - listMin values := sub_pos.2 hlt
  refine ⟨?_, ?_, ?_, ?_⟩
  · rw [hedge 0 (by norm_num)]
    norm_num
  · rw [hedge 50 (by norm_num)]
    push_cast
    ring
  · intro i hi
    rw [hedge (i + 1) (by omega), hedge i (by omega)]
    push_cast
    ring
  · rw [histCounts, getD_map_range 50 _ 0 49 (by norm_num), binCount_eq_countP]
    have hmem : binMem (histRange values).1
        (((histRange values).2 - (histRange values).1) / 50) 50 49 (listMax values) = true := by
      rw [binMem, if_pos rfl, hr]
      dsimp only
      simp only [Bool.and_eq_true, decide_eq_true_eq]
      constructor
      · have hq : 0 < (listMax values - listMin values) / 50 := div_pos hd (by norm_num)
        have hident : listMin values +
            ((49 : ℕ) : ℝ) * ((listMax values - listMin values) / 50) =
            listMax values - (listMax values - listMin values) / 50 := by
          push_cast
          ring
        rw [hident]
        linarith
      · have hident : listMin values +
            (((49 : ℕ) : ℝ) + 1) * ((listMax values - listMin values) / 50) =
            listMax values := by
          push_cast
          ring
        rw [hident]
    exact List.countP_pos.mpr ⟨listMax values, listMax_mem h, hmem⟩

/-- Witness for the amended C6 at the concrete vector `[1, 2]`. -/
theorem c6_histogram_witness :
    ([(1 : ℝ), 2] ≠ []) ∧
    ((histCounts [(1 : ℝ), 2]).sum = ([(1 : ℝ), 2] : List ℝ).length ∧
     (histEdges [(1 : ℝ), 2]).length = 51 ∧
     (histCounts [(1 : ℝ), 2]).length = 50 ∧
     (listMin [(1 : ℝ), 2] < listMax [(1 : ℝ), 2] →
       (histEdges [(1 : ℝ), 2]).getD 0 0 = listMin [(1 : ℝ), 2] ∧
       (histEdges [(1 : ℝ), 2]).getD 50 0 = listMax [(1 : ℝ), 2] ∧
       (∀ i < 50, (histEdges [(1 : ℝ), 2]).getD (i + 1) 0 -
          (histEdges [(1 : ℝ), 2]).getD i 0 =
          (listMax [(1 : ℝ), 2] - listMin [(1 : ℝ), 2]) / 50) ∧
       1 ≤ (histCounts [(1 : ℝ), 2]).getD 49 0)) :=
  ⟨by simp, c6_histogram [(1 : ℝ), 2] (by simp)⟩

/-- C6 is false as stated: for the constant vector `[1, 1]` the first bin
edge is `0.5`, not the minimum `1`, because `np.histogram` expands a
degenerate range to `[min − 0.5, max + 0.5]`. -/
theorem c6_counterexample :
    listMin [(1 : ℝ), 1] = 1 ∧ (histEdges [(1 : ℝ), 1]).getD 0 0 = 1 / 2 ∧
    (histEdges [(1 : ℝ), 1]).getD 0 0 ≠ listMin [(1 : ℝ), 1] := by
  have hmin : listMin [(1 : ℝ), 1] = 1 := by
    simp [listMin]
  have hmax : listMax [(1 : ℝ), 1] = 1 := by
    simp [listMax]
  have hr : histRange [(1 : ℝ), 1] = (1 - 0.5, 1 + 0.5) := by
    rw [histRange, hmin, hmax, if_pos rfl]
  have hedge : (histEdges [(1 : ℝ), 1]).getD 0 0 = 1 / 2 := by
    rw [histEdges, getD_map_range 51 _ 0 0 (by norm_num), hr]
    norm_num
  exact ⟨hmin, hedge, by rw [hedge, hmin]; norm_num⟩

end CommoditySim
